import Mathlib

/-!
# witcher-3-ultrawide-fix: a verification development

A shallow embedding of `main.go`: the option table and the signature, the
byte scan of `PatchWitcher` over a file handle with one read/write offset,
the directory search of `FindWitcher` over `filepath.Walk`, and the linear
run of `main`.  Bytes are natural numbers, byte slices are lists.
-/

namespace Witcher

/-! ## Constants of the program -/

/-- The name of the executable, `filename` in the source. -/
def filename : String := "witcher3.exe"

/-- The name of the directory that holds it, `targetDir` in the source. -/
def targetDir : String := "x64_dx12"

/-- The option table: resolution label to replacement bytes. -/
def options : List (String × List Nat) :=
  [ ("2560x1080", [0x26, 0xB4, 0x17, 0x40]),
    ("3440x1440", [0x8E, 0xE3, 0x18, 0x40]),
    ("3840x1600", [0x9A, 0x99, 0x19, 0x40]),
    ("5120x1440", [0x39, 0x8E, 0x63, 0x40]),
    ("5120x2160", [0x26, 0xB4, 0x17, 0x40]),
    ("6880x2880", [0x8E, 0xE3, 0x18, 0x40]) ]

/-- The signature searched for, `hexValue` in the source. -/
def hexValue : List Nat := [0x39, 0x8e, 0xe3, 0x3f]

/-- Map lookup `options[resolution]` with the `ok` flag: `none` when the key is absent. -/
def optionsLookup (resolution : String) : Option (List Nat) :=
  (options.find? (fun kv => kv.1 == resolution)).map (fun kv => kv.2)

/-- The keys of the option table. -/
def optionKeys : List String := options.map (fun kv => kv.1)

/-! ## The scan of `PatchWitcher` -/

/-- Go's builtin `copy(dst, src)`: the first `min (len dst) (len src)` elements of
`dst` are overwritten with those of `src`; the length of `dst` is unchanged. -/
def copy (dst src : List Nat) : List Nat :=
  src.take dst.length ++ dst.drop src.length

/-- The statement `copy(content[i:i+4], newHexValue)`: the slice `content[i:i+4]`
is overwritten in place. -/
def copyAt (content : List Nat) (i : Nat) (src : List Nat) : List Nat :=
  content.take i ++ copy ((content.drop i).take 4) src ++ content.drop (i + 4)

/-- The condition of the `if` in the loop: the four bytes at `i` are the signature. -/
def matchAt (content : List Nat) (i : Nat) : Prop :=
  content[i]? = hexValue[0]? ∧ content[i+1]? = hexValue[1]? ∧
    content[i+2]? = hexValue[2]? ∧ content[i+3]? = hexValue[3]?

instance (content : List Nat) (i : Nat) : Decidable (matchAt content i) := by
  unfold matchAt; infer_instance

/-- The loop `for i := 0; i < len(content)-3; i++` from index `i` on, with the
running `count`; `fuel` bounds the number of iterations, `none` means it ran out.
The loop bound is the signed `len(content)-3` of the source. -/
def patchLoop (newHexValue : List Nat) : Nat → List Nat → Nat → Nat → Option (List Nat × Nat)
  | 0, _, _, _ => none
  | fuel + 1, content, i, count =>
    if (i : Int) < (content.length : Int) - 3 then
      if matchAt content i then
        patchLoop newHexValue fuel (copyAt content i newHexValue) (i + 1) (count + 1)
      else
        patchLoop newHexValue fuel content (i + 1) count
    else
      some (content, count)

/-- The whole scan: the loop from `i = 0`, `count = 0`.  The loop makes at most
`len(content)` iterations, so this fuel is never exhausted (`patchScan_total`). -/
def patchScan (newHexValue content : List Nat) : Option (List Nat × Nat) :=
  patchLoop newHexValue (content.length + 1) content 0 0

/-! ## Files: contents by path, handles with one offset -/

deriving instance DecidableEq for Except

/-- The byte contents of the files of the file system, by path; `none` for a path
that names no file. -/
abbrev Store := String → Option (List Nat)

/-- An open `*os.File`: the path it was opened at and its single read/write offset. -/
structure File where
  path : String
  pos : Nat
  deriving DecidableEq, Repr

/-- The I/O calls of the program that may fail, each with the error it returns, or
`none` when the call succeeds.  A failing `io.Copy` or `Write` has transferred the
given number of bytes before the error. -/
structure Faults where
  stat : Option String
  open_ : Option String
  create : Option String
  copy : Option (Nat × String)
  readAll : Option String
  seek : Option String
  write : Option (Nat × String)

/-- Every I/O call succeeds. -/
def noFaults : Faults :=
  { stat := none, open_ := none, create := none, copy := none,
    readAll := none, seek := none, write := none }

/-- The bytes of the file a handle is open on. -/
def fileData (st : Store) (f : File) : List Nat :=
  (st f.path).getD []

/-- Reading from a handle to the end of the file (`io.ReadAll`, and the reading
side of `io.Copy`): the bytes from the current offset on, and the offset moves to
the end of the file. -/
def readAll (st : Store) (f : File) : List Nat × File :=
  ((fileData st f).drop f.pos, { f with pos := max f.pos (fileData st f).length })

/-- The call `file.Seek(0, 0)`: the offset goes back to the start. -/
def seekStart (f : File) : File :=
  { f with pos := 0 }

/-- The bytes of a file after `buf` is written at offset `pos`: the bytes under the
write are replaced, a write past the end fills the gap with zeros, the file grows
when the write ends past its end and never shrinks. -/
def writeAt (data : List Nat) (pos : Nat) (buf : List Nat) : List Nat :=
  data.take pos ++ List.replicate (pos - data.length) 0 ++ buf ++ data.drop (pos + buf.length)

/-- The call `file.Write(buf)`: the bytes go to the current offset, which advances. -/
def write (st : Store) (f : File) (buf : List Nat) : Store × File :=
  (Function.update st f.path (some (writeAt (fileData st f) f.pos buf)),
   { f with pos := f.pos + buf.length })

/-! ## `PatchWitcher` -/

/-- The function `PatchWitcher(file, newHexValue)`: read the handle to the end, scan,
seek to 0, write the buffer back, report.  The result is the returned
`(string, error)` pair as an `Except`, with the store and the handle afterwards;
`none` only if the scan ran out of fuel, which `patchScan_total` excludes. -/
def PatchWitcher (io : Faults) (st : Store) (file : File) (newHexValue : List Nat) :
    Option (Except String String × Store × File) :=
  match io.readAll with
  | some err => some (.error err, st, file)
  | none =>
    let (content, file1) := readAll st file
    match patchScan newHexValue content with
    | none => none
    | some (content1, count) =>
      match io.seek with
      | some err => some (.error err, st, file1)
      | none =>
        let file2 := seekStart file1
        match io.write with
        | some (n, err) =>
          let (st1, file3) := write st file2 (content1.take n)
          some (.error err, st1, file3)
        | none =>
          let (st1, file3) := write st file2 content1
          if count = 0 then
            some (.ok "looks like witcher 3 is already patched", st1, file3)
          else
            some (.ok ("updated " ++ toString count ++ " times, expected 3\n"), st1, file3)

/-! ## Directory trees and `filepath.Walk` -/

/-- A directory tree as `Lstat` and `readDirNames` report it: a non-directory entry
with its name, or a directory with its name and its entries in the order in which
`filepath.Walk` visits them (lexical order of the names).  There are no symbolic
links and no I/O errors in the tree. -/
inductive Node where
  | file (name : String) : Node
  | dir (name : String) (entries : List Node) : Node

/-- The method `info.Name()`. -/
def Node.name : Node → String
  | .file n => n
  | .dir n _ => n

/-- The method `info.IsDir()`. -/
def Node.isDir : Node → Bool
  | .file _ => false
  | .dir _ _ => true

/-- The non-nil errors a `WalkFunc` can return. -/
inductive WalkErr where
  | skipDir : WalkErr
  | skipAll : WalkErr
  | other (msg : String) : WalkErr
  deriving DecidableEq, Repr

/-- The text of an error, `err.Error()`. -/
def WalkErr.msg : WalkErr → String
  | .skipDir => "skip this directory"
  | .skipAll => "skip everything and stop the walk"
  | .other m => m

/-- The call `filepath.Join(path, name)` on a clean `path`: the two joined by the
separator. -/
def join (path name : String) : String :=
  path ++ "/" ++ name

/-- A `filepath.WalkFunc` whose closure state has type `σ`: called with the path and
the info of an entry, it returns the new state and an error, `none` for `nil`.
Its `err` argument is always `nil` here, since the tree has no I/O errors. -/
abbrev WalkFunc (σ : Type) := String → Node → σ → σ × Option WalkErr

mutual
/-- The recursive `walk` of package `filepath`: call `fn` on the entry; for a
directory on which `fn` returned `nil`, walk the entries. -/
def walk {σ : Type} (fn : WalkFunc σ) (path : String) (info : Node) (s : σ) :
    σ × Option WalkErr :=
  match info with
  | .file _ => fn path info s
  | .dir _ entries =>
    match fn path info s with
    | (s1, some err1) => (s1, some err1)
    | (s1, none) => walkEntries fn path entries s1
/-- The loop `for _, name := range names` of `walk`: an error stops the loop unless it
is `SkipDir` returned for a directory. -/
def walkEntries {σ : Type} (fn : WalkFunc σ) (path : String) :
    List Node → σ → σ × Option WalkErr
  | [], s => (s, none)
  | e :: rest, s =>
    match walk fn (join path e.name) e s with
    | (s1, none) => walkEntries fn path rest s1
    | (s1, some err) =>
      if !e.isDir || err ≠ WalkErr.skipDir then (s1, some err)
      else walkEntries fn path rest s1
end

/-- The function `filepath.Walk(root, fn)` on a root that exists: `SkipDir` and
`SkipAll` coming out of the walk become `nil`. -/
def Walk {σ : Type} (fn : WalkFunc σ) (root : String) (info : Node) (s : σ) :
    σ × Option WalkErr :=
  match walk fn root info s with
  | (s1, some WalkErr.skipDir) => (s1, none)
  | (s1, some WalkErr.skipAll) => (s1, none)
  | (s1, r) => (s1, r)

/-! ## `FindWitcher` -/

/-- The inner closure of `FindWitcher`; the state is the variable `executable`. -/
def innerFn : WalkFunc String :=
  fun innerPath innerInfo executable =>
    if !innerInfo.isDir && innerInfo.name == filename then (innerPath, some WalkErr.skipDir)
    else (executable, none)

/-- The outer closure of `FindWitcher`; the state is the variable `executable`. -/
def outerFn : WalkFunc String :=
  fun path info executable =>
    if info.isDir && info.name == targetDir then
      match Walk innerFn path info executable with
      | (executable1, some err) => (executable1, some err)
      | (executable1, none) =>
        if executable1.length > 1 then (executable1, some WalkErr.skipDir)
        else (executable1, none)
    else (executable, none)

/-- The function `FindWitcher(rootDir)`, over the tree found at each path: the walk,
the test `len(executable) == 0`, and `os.OpenFile`, which returns a handle at offset
0.  A root that does not exist makes `Lstat` fail, and the closure returns that
error.  The length of `executable` is only compared with 0 and 1, and a path the
walk stores ends in `witcher3.exe`, so counting characters instead of bytes makes no
difference. -/
def FindWitcher (tree : String → Option Node) (io : Faults) (rootDir : String) :
    Except String File :=
  match tree rootDir with
  | none => .error ("lstat " ++ rootDir ++ ": no such file or directory")
  | some info =>
    match Walk outerFn rootDir info "" with
    | (_, some err) => .error err.msg
    | (executable, none) =>
      if executable.length = 0 then
        .error ("file " ++ filename ++ " not found in " ++ rootDir)
      else
        match io.open_ with
        | some err => .error err
        | none => .ok { path := executable, pos := 0 }

/-! ## The command line and `main` -/

/-- The function `strconv.ParseBool`, which reads the value of `-help=value`. -/
def parseBool (s : String) : Option Bool :=
  if s ∈ ["1", "t", "T", "TRUE", "true", "True"] then some true
  else if s ∈ ["0", "f", "F", "FALSE", "false", "False"] then some false
  else none

/-- The call `flag.Parse()` of a program whose only flag is the boolean `help`, on the
arguments after the program name: either the exit status with which package `flag`
ends the process (2 for a bad or unknown flag, 0 for `-h`), or the value of `help`
and the positional arguments left.  Parsing stops at the first argument that is not
a flag and after `--`. -/
def flagParse : List String → Bool → Except Nat (Bool × List String)
  | [], help => .ok (help, [])
  | s :: rest, help =>
    match s.data with
    | '-' :: c :: cs =>
      if c = '-' ∧ cs = [] then .ok (help, rest)
      else
        match (if c = '-' then cs else c :: cs) with
        | [] => .error 2
        | n0 :: ns =>
          if n0 = '-' ∨ n0 = '=' then .error 2
          else
            match ns.span (fun ch => ch != '=') with
            | (before, after) =>
              if String.mk (n0 :: before) = "help" then
                match after with
                | [] => flagParse rest true
                | _ :: value =>
                  match parseBool (String.mk value) with
                  | some b => flagParse rest b
                  | none => .error 2
              else if String.mk (n0 :: before) = "h" then .error 0
              else .error 2
    | _ => .ok (help, s :: rest)

/-- The text `showUsage` prints to standard error. -/
def usage : String :=
  "Usage: witcher-3-ultrawide-fix.exe \"C:\\Games\\GOG\\The Witcher 3 Wild Hunt\" 3440x1440\n\n\tUse quotes \" around the path\nOptions:\n  --help     Show this message\n"

/-- The world a run of `main` starts in: the tree found at each path, the contents of
the files, the I/O calls that fail, and the order in which `range options` yields
the keys of the table, which Go leaves unspecified. -/
structure World where
  tree : String → Option Node
  store : Store
  io : Faults
  keyOrder : List String

/-- The calls of `main` that touch the file system. -/
inductive Call where
  | findWitcher : Call
  | create : Call
  | copy : Call
  | patchWitcher : Call
  deriving DecidableEq, Repr

/-- What a run of `main` leaves behind: the exit status, what was printed to standard
output and standard error, the contents of the files, and the calls made, in
order. -/
structure Outcome where
  exit : Nat
  stdout : List String
  stderr : List String
  store : Store
  calls : List Call

/-- The condition `err != nil || !stat.IsDir()` on `os.Stat(directory)`. -/
def statFails (w : World) (directory : String) : Bool :=
  w.io.stat.isSome ||
    match w.tree directory with
    | none => true
    | some info => !info.isDir

/-- The function `main`, on the arguments `os.Args`.  `none` only if the scan of
`PatchWitcher` ran out of fuel.  What package `flag` prints when it ends the process
is left out. -/
def main (w : World) (osArgs : List String) : Option Outcome :=
  match flagParse (osArgs.drop 1) false with
  | .error code =>
    some { exit := code, stdout := [], stderr := [], store := w.store, calls := [] }
  | .ok (help, _) =>
    if help then
      some { exit := 0, stdout := [], stderr := [usage], store := w.store, calls := [] }
    else if osArgs.length ≠ 3 then
      some { exit := 0, stdout := [], stderr := [usage], store := w.store, calls := [] }
    else
      let directory := osArgs.getD 1 ""
      let resolution := osArgs.getD 2 ""
      if statFails w directory then
        some { exit := 1, stdout := [directory ++ " does not exists\n"], stderr := [],
               store := w.store, calls := [] }
      else
        match optionsLookup resolution with
        | none =>
          some { exit := 1,
                 stdout := (resolution ++ " is not a valid option, choose one:\n") ::
                   w.keyOrder.map (fun key => key ++ "\n"),
                 stderr := [], store := w.store, calls := [] }
        | some newHexValue =>
          match FindWitcher w.tree w.io directory with
          | .error err =>
            some { exit := 1, stdout := [err ++ "\n"], stderr := [], store := w.store,
                   calls := [Call.findWitcher] }
          | .ok file =>
            match w.io.create with
            | some err =>
              some { exit := 1, stdout := ["could not create a backup: " ++ err ++ "\n"],
                     stderr := [], store := w.store,
                     calls := [Call.findWitcher, Call.create] }
            | none =>
              let dst : File := { path := join directory "witcher3_backup.exe", pos := 0 }
              let st1 : Store := Function.update w.store dst.path (some [])
              match w.io.copy with
              | some (n, err) =>
                some { exit := 1, stdout := ["could not do backup: " ++ err ++ "\n"],
                       stderr := [],
                       store := (write st1 dst ((readAll st1 file).1.take n)).1,
                       calls := [Call.findWitcher, Call.create, Call.copy] }
              | none =>
                let (data, file1) := readAll st1 file
                let (st2, _) := write st1 dst data
                let out1 := "created a backup at " ++ dst.path ++ "\n"
                match PatchWitcher w.io st2 file1 newHexValue with
                | none => none
                | some (.error err, st3, _) =>
                  some { exit := 1, stdout := [out1, err ++ "\n"], stderr := [], store := st3,
                         calls := [Call.findWitcher, Call.create, Call.copy,
                                   Call.patchWitcher] }
                | some (.ok result, st3, _) =>
                  some { exit := 0, stdout := [out1, result ++ "\n"], stderr := [],
                         store := st3,
                         calls := [Call.findWitcher, Call.create, Call.copy,
                                   Call.patchWitcher] }

/-! ## Specification vocabulary for the search -/

mutual
/-- The paths of the non-directory entries named `witcher3.exe` in the tree `n`
found at `path`, in the order of the traversal. -/
def filesIn (path : String) : Node → List String
  | .file name => if name = filename then [path] else []
  | .dir _ entries => filesInEntries path entries
/-- The same for the entries of the directory at `path`. -/
def filesInEntries (path : String) : List Node → List String
  | [] => []
  | e :: rest => filesIn (join path e.name) e ++ filesInEntries path rest
end

mutual
/-- The matching files of the tree `n` found at `path`, in the order of the
traversal: the non-directory entries named `witcher3.exe` at any depth inside a
directory named `x64_dx12`. -/
def matchesIn (path : String) : Node → List String
  | .file _ => []
  | .dir name entries =>
    if name = targetDir then filesInEntries path entries else matchesInEntries path entries
/-- The same for the entries of the directory at `path`. -/
def matchesInEntries (path : String) : List Node → List String
  | [] => []
  | e :: rest => matchesIn (join path e.name) e ++ matchesInEntries path rest
end

/-- What a walk that started with `executable = exe` leaves behind, when `found` are
the files it can find: it returns `nil` or `SkipDir`; with nothing to find the
variable is unchanged; otherwise the variable holds one of the files. -/
def WalkPost (exe : String) (found : List String) (r : String × Option WalkErr) : Prop :=
  (r.2 = none ∨ r.2 = some WalkErr.skipDir) ∧ (found = [] → r.1 = exe) ∧
    (found ≠ [] → r.1 ∈ found)

/-! ## IEEE-754 single precision, in exact rational arithmetic -/

/-- The 32-bit pattern whose little-endian bytes are `bs`. -/
def le32 (bs : List Nat) : Nat :=
  bs.getD 0 0 + 2 ^ 8 * bs.getD 1 0 + 2 ^ 16 * bs.getD 2 0 + 2 ^ 24 * bs.getD 3 0

/-- The magnitude of a finite single-precision number with exponent field `expo` and
mantissa field `mant`, scaled by `2 ^ 150`: `mant * 2 ^ (-149)` for a subnormal
number, `(2 ^ 23 + mant) * 2 ^ (expo - 150)` for a normal one. -/
def f32Scaled (expo mant : Nat) : Nat :=
  if expo = 0 then mant * 2 ^ 1 else (2 ^ 23 + mant) * 2 ^ expo

/-- The rational value of a finite single-precision number from its sign bit, its
8-bit exponent field and its 23-bit mantissa field. -/
def f32Value (sign expo mant : Nat) : ℚ :=
  (if sign = 0 then 1 else -1) * (f32Scaled expo mant : ℚ) / 2 ^ 150

/-- The rational value a 32-bit pattern decodes to; `none` for an infinity or a NaN,
whose exponent field is 255. -/
def decodeF32 (bits : Nat) : Option ℚ :=
  if bits / 2 ^ 23 % 2 ^ 8 = 255 then none
  else some (f32Value (bits / 2 ^ 31 % 2) (bits / 2 ^ 23 % 2 ^ 8) (bits % 2 ^ 23))

/-- The number `x` is at least as close to `q` as every finite single-precision
number. -/
def nearestF32 (x q : ℚ) : Prop :=
  ∀ bits y, decodeF32 bits = some y → |x - q| ≤ |y - q|

/-- A decimal number read from its digits. -/
def parseDigits : List Char → Option Nat
  | [] => none
  | cs =>
    cs.foldl
      (fun acc ch =>
        acc.bind (fun n => if ch.isDigit then some (10 * n + (ch.toNat - 48)) else none))
      (some 0)

/-- The width and the height a resolution label `WxH` names. -/
def parseLabel (label : String) : Option (Nat × Nat) :=
  match label.data.span (fun ch => ch != 'x') with
  | (w, _ :: h) =>
    match parseDigits w, parseDigits h with
    | some a, some b => some (a, b)
    | _, _ => none
  | _ => none

/-- The bytes of a table entry decode to the single-precision number nearest to the
aspect ratio its label names. -/
def encodesAspect (kv : String × List Nat) : Prop :=
  ∃ W H x, parseLabel kv.1 = some (W, H) ∧ decodeF32 (le32 kv.2) = some x ∧
    nearestF32 x ((W : ℚ) / (H : ℚ))

/-! ## Sample inputs -/

/-- A game directory with two copies of the executable under `x64_dx12`. -/
def twoCopies : Node :=
  .dir "game" [.dir "x64_dx12" [.dir "a" [.file "witcher3.exe"], .dir "b" [.file "witcher3.exe"]]]

/-- Two game installations side by side. -/
def twoInstalls : Node :=
  .dir "games" [.dir "gog" [.dir "x64_dx12" [.file "witcher3.exe"]],
                .dir "steam" [.dir "x64_dx12" [.file "witcher3.exe"]]]

/-- A copy of the executable directly in `x64_dx12` and one in a directory that sorts
after it. -/
def fileBeforeDir : Node :=
  .dir "game" [.dir "x64_dx12" [.file "witcher3.exe", .dir "zzz" [.file "witcher3.exe"]]]

/-- A small executable image with the signature at offsets 2, 7 and 11. -/
def sampleExe : List Nat :=
  [0x4d, 0x5a, 0x39, 0x8e, 0xe3, 0x3f, 0x00, 0x39, 0x8e, 0xe3, 0x3f,
   0x39, 0x8e, 0xe3, 0x3f, 0x90]

/-- A store that holds `sampleExe` at the usual path and nothing else. -/
def sampleStore : Store :=
  fun p => if p = "/game/x64_dx12/witcher3.exe" then some sampleExe else none

/-- A freshly opened handle on the sample executable. -/
def sampleFile : File :=
  { path := "/game/x64_dx12/witcher3.exe", pos := 0 }

/-- A buffer with one occurrence of the signature, at offset 0, followed by `3F`. -/
def oneOccurrence : List Nat := [0x39, 0x8e, 0xe3, 0x3f, 0x3f]

/-- A 4-byte replacement whose last three bytes begin a signature. -/
def overlappingReplacement : List Nat := [0x00, 0x39, 0x8e, 0xe3]

/-- The usual installation: `x64_dx12/witcher3.exe` in the game directory. -/
def gameTree : Node :=
  .dir "game" [.dir "x64_dx12" [.file "witcher3.exe"]]

/-- A world with the usual installation at `/game`, the sample executable, and no
failing I/O. -/
def sampleWorld : World :=
  { tree := fun p => if p = "/game" then some gameTree else none,
    store := sampleStore,
    io := noFaults,
    keyOrder := optionKeys }

/-- The sample world with a disk that fills up after three bytes of the backup. -/
def diskFullWorld : World :=
  { sampleWorld with
    io := { noFaults with copy := some (3, "write /game/witcher3_backup.exe: no space left on device") } }

/-! ## Specification vocabulary for the scan -/

/-- The signature occurs in `b` at offset `i`: the four bytes `b[i..i+4]` are the signature. -/
def occursAt (b : List Nat) (i : Nat) : Prop :=
  (b.drop i).take 4 = hexValue

instance (b : List Nat) (i : Nat) : Decidable (occursAt b i) := by
  unfold occursAt; infer_instance

/-- The offsets at which the signature occurs in `b`, in increasing order. -/
def occurrences (b : List Nat) : List Nat :=
  (List.range b.length).filter (fun i => occursAt b i)

/-- Position `p` lies in the 4-byte window of some occurrence of the signature in `b`. -/
def inWindow (b : List Nat) (p : Nat) : Prop :=
  ∃ k, occursAt b k ∧ k ≤ p ∧ p < k + 4

/-- A 4-byte replacement none of whose proper suffixes is a prefix of the signature:
writing it cannot complete a signature with the bytes that follow it. -/
def noFalseMatch (r : List Nat) : Prop :=
  r.length = 4 ∧ r.drop 1 ≠ hexValue.take 3 ∧ r.drop 2 ≠ hexValue.take 2 ∧
    r.drop 3 ≠ hexValue.take 1

instance (r : List Nat) : Decidable (noFalseMatch r) := by
  unfold noFalseMatch; infer_instance

/-- A replacement after which no signature is left: it is not the signature itself,
it cannot complete one with the bytes after it, nor with the bytes before it. -/
def cleanReplacement (r : List Nat) : Prop :=
  noFalseMatch r ∧ r ≠ hexValue ∧ r.take 3 ≠ hexValue.drop 1 ∧ r.take 2 ≠ hexValue.drop 2 ∧
    r.take 1 ≠ hexValue.drop 3

instance (r : List Nat) : Decidable (cleanReplacement r) := by
  unfold cleanReplacement; infer_instance

/-- The replacement values of the option table. -/
def optionValues : List (List Nat) := options.map (fun kv => kv.2)

/-- The invariant of the loop of `PatchWitcher` at index `i`, relating the current
buffer `cur` and `count` to the buffer `b` that was read: every occurrence of the
signature at an offset below `i` has been overwritten with `r`, every position
outside those windows is untouched, and `count` is the number of those occurrences. -/
def ScanInv (b r : List Nat) (i : Nat) (cur : List Nat) (count : Nat) : Prop :=
  cur.length = b.length ∧
  (∀ k, k < i → occursAt b k → ∀ j, j < 4 → cur[k + j]? = r[j]?) ∧
  (∀ p, (∀ k, k < i → occursAt b k → p < k ∨ k + 4 ≤ p) → cur[p]? = b[p]?) ∧
  count = ((List.range i).filter (fun k => occursAt b k)).length

/-! ## Theorems -/

/-! ### The scan -/

theorem copyAt_eq (cur r : List Nat) (i : Nat) (hi : i + 4 ≤ cur.length) (hr : r.length = 4) :
    copyAt cur i r = cur.take i ++ r ++ cur.drop (i + 4) := by
  unfold copyAt copy
  have h1 : ((cur.drop i).take 4).length = 4 := by
    simp only [List.length_take, List.length_drop]; omega
  rw [h1, ← hr, List.take_length, hr]
  have h2 : ((cur.drop i).take 4).drop 4 = [] := by
    apply List.drop_eq_nil_of_le; omega
  rw [h2, List.append_nil]

theorem length_copyAt (cur r : List Nat) (i : Nat) (hi : i + 4 ≤ cur.length) (hr : r.length = 4) :
    (copyAt cur i r).length = cur.length := by
  rw [copyAt_eq cur r i hi hr]
  simp only [List.length_append, List.length_take, List.length_drop]
  omega

theorem getElem?_copyAt (cur r : List Nat) (i p : Nat) (hi : i + 4 ≤ cur.length)
    (hr : r.length = 4) :
    (copyAt cur i r)[p]? = if i ≤ p ∧ p < i + 4 then r[p - i]? else cur[p]? := by
  rw [copyAt_eq cur r i hi hr]
  have hl : (cur.take i ++ r).length = i + 4 := by
    simp only [List.length_append, List.length_take]; omega
  have hl0 : (cur.take i).length = i := by
    simp only [List.length_take]; omega
  by_cases h1 : p < i
  · rw [List.getElem?_append_left (by omega), List.getElem?_append_left (by omega)]
    rw [List.getElem?_take_of_lt h1, if_neg (by omega)]
  · by_cases h2 : p < i + 4
    · rw [List.getElem?_append_left (by omega), List.getElem?_append_right (by omega),
        hl0, if_pos (by omega)]
    · rw [List.getElem?_append_right (by omega), hl, List.getElem?_drop, if_neg (by omega)]
      congr 1; omega

theorem occursAt_iff (b : List Nat) (i : Nat) :
    occursAt b i ↔ (b[i]? = some 0x39 ∧ b[i+1]? = some 0x8e ∧
      b[i+2]? = some 0xe3 ∧ b[i+3]? = some 0x3f) := by
  unfold occursAt hexValue
  have e0 : b[i]? = (b.drop i)[0]? := by rw [List.getElem?_drop]; rfl
  have e1 : b[i+1]? = (b.drop i)[1]? := by rw [List.getElem?_drop]
  have e2 : b[i+2]? = (b.drop i)[2]? := by rw [List.getElem?_drop]
  have e3 : b[i+3]? = (b.drop i)[3]? := by rw [List.getElem?_drop]
  rw [e0, e1, e2, e3]
  rcases b.drop i with _ | ⟨a0, _ | ⟨a1, _ | ⟨a2, _ | ⟨a3, t⟩⟩⟩⟩ <;> simp

theorem occursAt_lt (b : List Nat) (k : Nat) (h : occursAt b k) : k + 4 ≤ b.length := by
  rw [occursAt_iff] at h
  have h3 := h.2.2.2
  by_contra hc
  rw [List.getElem?_eq_none (by omega)] at h3
  exact absurd h3 (by simp)

theorem occursAt_disjoint (b : List Nat) (k i : Nat) (hk : occursAt b k) (hi : occursAt b i)
    (hlt : k < i) : k + 4 ≤ i := by
  rw [occursAt_iff] at hk hi
  by_contra hc
  have h : i = k + 1 ∨ i = k + 2 ∨ i = k + 3 := by omega
  rcases h with h | h | h <;> subst h <;> simp_all

theorem matchAt_iff (cur : List Nat) (i : Nat) : matchAt cur i ↔ occursAt cur i := by
  rw [occursAt_iff]; simp [matchAt, hexValue]

theorem matchAt_of_inv (b r cur : List Nat) (i count : Nat) (hr : noFalseMatch r)
    (hinv : ScanInv b r i cur count) : matchAt cur i ↔ occursAt b i := by
  obtain ⟨_, hrep, hfix, _⟩ := hinv
  obtain ⟨hlen, hs1, hs2, hs3⟩ := hr
  constructor
  · intro hm
    rw [matchAt_iff, occursAt_iff] at hm
    by_cases hk : ∃ d, 1 ≤ d ∧ d ≤ 3 ∧ d ≤ i ∧ occursAt b (i - d)
    · exfalso
      obtain ⟨d, hd1, hd3, hdi, hocc⟩ := hk
      have hw := hrep (i - d) (by omega) hocc
      match r, hlen with
      | [r0, r1, r2, r3], _ =>
        have hd : d = 1 ∨ d = 2 ∨ d = 3 := by omega
        rcases hd with hd | hd | hd <;> subst hd
        · have a1 := hw 1 (by omega)
          have a2 := hw 2 (by omega)
          have a3 := hw 3 (by omega)
          rw [show i - 1 + 1 = i by omega] at a1
          rw [show i - 1 + 2 = i + 1 by omega] at a2
          rw [show i - 1 + 3 = i + 2 by omega] at a3
          simp_all [hexValue]
        · have a2 := hw 2 (by omega)
          have a3 := hw 3 (by omega)
          rw [show i - 2 + 2 = i by omega] at a2
          rw [show i - 2 + 3 = i + 1 by omega] at a3
          simp_all [hexValue]
        · have a3 := hw 3 (by omega)
          rw [show i - 3 + 3 = i by omega] at a3
          simp_all [hexValue]
    · have hout : ∀ j, j < 4 → cur[i + j]? = b[i + j]? := by
        intro j hj
        apply hfix
        intro k hki hocc
        right
        by_contra hc
        exact hk ⟨i - k, by omega, by omega, by omega, by
          rw [show i - (i - k) = k by omega]; exact hocc⟩
      rw [occursAt_iff]
      have h0 := hout 0 (by omega)
      rw [Nat.add_zero] at h0
      rw [← h0, ← hout 1 (by omega), ← hout 2 (by omega), ← hout 3 (by omega)]
      exact hm
  · intro hocc
    have hout : ∀ j, j < 4 → cur[i + j]? = b[i + j]? := by
      intro j hj
      apply hfix
      intro k hki hk
      right
      have := occursAt_disjoint b k i hk hocc hki
      omega
    rw [matchAt_iff, occursAt_iff]
    rw [occursAt_iff] at hocc
    have h0 := hout 0 (by omega)
    rw [Nat.add_zero] at h0
    rw [h0, hout 1 (by omega), hout 2 (by omega), hout 3 (by omega)]
    exact hocc

theorem scanInv_init (b r : List Nat) : ScanInv b r 0 b 0 := by
  refine ⟨rfl, ?_, ?_, ?_⟩
  · intro k hk; omega
  · intro p _; rfl
  · simp

theorem scanInv_skip (b r cur : List Nat) (i count : Nat) (hinv : ScanInv b r i cur count)
    (hno : ¬ occursAt b i) : ScanInv b r (i + 1) cur count := by
  obtain ⟨hlen, hrep, hfix, hcnt⟩ := hinv
  refine ⟨hlen, ?_, ?_, ?_⟩
  · intro k hk hocc
    have hne : k ≠ i := fun h => hno (h ▸ hocc)
    exact hrep k (by omega) hocc
  · intro p hp
    exact hfix p (fun k hk hocc => hp k (by omega) hocc)
  · rw [List.range_succ, List.filter_append, List.length_append, ← hcnt]
    simp [hno]

theorem scanInv_hit (b r cur : List Nat) (i count : Nat) (hr : r.length = 4)
    (hinv : ScanInv b r i cur count) (hocc : occursAt b i) :
    ScanInv b r (i + 1) (copyAt cur i r) (count + 1) := by
  obtain ⟨hlen, hrep, hfix, hcnt⟩ := hinv
  have hi : i + 4 ≤ cur.length := by rw [hlen]; exact occursAt_lt b i hocc
  refine ⟨by rw [length_copyAt cur r i hi hr, hlen], ?_, ?_, ?_⟩
  · intro k hk hk_occ j hj
    rw [getElem?_copyAt cur r i (k + j) hi hr]
    by_cases hki : k = i
    · subst hki
      rw [if_pos (by omega)]
      congr 1; omega
    · have hlt : k < i := by omega
      have := occursAt_disjoint b k i hk_occ hocc hlt
      rw [if_neg (by omega)]
      exact hrep k hlt hk_occ j hj
  · intro p hp
    rw [getElem?_copyAt cur r i p hi hr]
    have := hp i (by omega) hocc
    rw [if_neg (by omega)]
    exact hfix p (fun k hk hk_occ => hp k (by omega) hk_occ)
  · rw [List.range_succ, List.filter_append, List.length_append, ← hcnt]
    simp [hocc]

theorem patchLoop_inv (b r : List Nat) (hr : noFalseMatch r) :
    ∀ (fuel : Nat) (cur : List Nat) (i count : Nat), ScanInv b r i cur count →
      b.length - i < fuel →
      ∃ out n i', patchLoop r fuel cur i count = some (out, n) ∧ ScanInv b r i' out n ∧
        b.length ≤ i' + 3 := by
  intro fuel
  induction fuel with
  | zero =>
    intro cur i count hinv hfuel
    omega
  | succ fuel ih =>
    intro cur i count hinv hfuel
    unfold patchLoop
    have hlen := hinv.1
    by_cases hcond : (i : Int) < (cur.length : Int) - 3
    · rw [if_pos hcond]
      by_cases hm : matchAt cur i
      · rw [if_pos hm]
        have hocc := (matchAt_of_inv b r cur i count hr hinv).1 hm
        exact ih _ _ _ (scanInv_hit b r cur i count hr.1 hinv hocc) (by omega)
      · rw [if_neg hm]
        have hocc : ¬ occursAt b i := fun h => hm ((matchAt_of_inv b r cur i count hr hinv).2 h)
        exact ih _ _ _ (scanInv_skip b r cur i count hinv hocc) (by omega)
    · rw [if_neg hcond]
      exact ⟨cur, count, i, rfl, hinv, by omega⟩

theorem filter_range_stable (P : Nat → Bool) (m : Nat) (hP : ∀ k, P k = true → k < m) :
    ∀ n, m ≤ n → (List.range n).filter P = (List.range m).filter P := by
  intro n hn
  induction n, hn using Nat.le_induction with
  | base => rfl
  | succ n hmn ih =>
    rw [List.range_succ, List.filter_append, ih]
    have : P n = false := by
      cases h : P n
      · rfl
      · have := hP n h; omega
    simp [this]

/-- What the scan leaves behind, for a replacement that cannot create a false match:
same length, `r` on every occurrence of the signature in the buffer read, the bytes
read everywhere else, and a count equal to the number of occurrences. -/
theorem patchScan_spec (b r : List Nat) (hr : noFalseMatch r) :
    ∃ out, patchScan r b = some (out, (occurrences b).length) ∧
      out.length = b.length ∧
      (∀ k, occursAt b k → ∀ j, j < 4 → out[k + j]? = r[j]?) ∧
      (∀ p, ¬ inWindow b p → out[p]? = b[p]?) := by
  obtain ⟨out, n, i', hrun, ⟨hlen, hrep, hfix, hcnt⟩, hend⟩ :=
    patchLoop_inv b r hr (b.length + 1) b 0 0 (scanInv_init b r) (by omega)
  have hbelow : ∀ k, occursAt b k → k < i' ∧ k < b.length := by
    intro k hk
    have := occursAt_lt b k hk
    omega
  have hn : n = (occurrences b).length := by
    rw [hcnt]
    unfold occurrences
    have hP : ∀ k, (decide (occursAt b k)) = true → k < min i' b.length := by
      intro k hk
      have := hbelow k (of_decide_eq_true hk)
      omega
    rw [filter_range_stable _ _ hP i' (by omega), filter_range_stable _ _ hP b.length (by omega)]
  refine ⟨out, ?_, hlen, ?_, ?_⟩
  · rw [← hn]; exact hrun
  · intro k hk
    exact hrep k (hbelow k hk).1 hk
  · intro p hp
    apply hfix
    intro k _ hk
    by_contra hc
    exact hp ⟨k, hk, by omega, by omega⟩

theorem length_copyAt_any (cur r : List Nat) (i : Nat) (hi : i + 4 ≤ cur.length) :
    (copyAt cur i r).length = cur.length := by
  simp only [copyAt, copy, List.length_append, List.length_take, List.length_drop]
  omega

/-- The loop terminates: the fuel `len - i + 1` is never exhausted, whatever the
replacement. -/
theorem patchLoop_total (r : List Nat) :
    ∀ (fuel : Nat) (cur : List Nat) (i count : Nat), cur.length - i < fuel →
      (patchLoop r fuel cur i count).isSome = true := by
  intro fuel
  induction fuel with
  | zero => intro cur i count h; omega
  | succ fuel ih =>
    intro cur i count h
    unfold patchLoop
    by_cases hcond : (i : Int) < (cur.length : Int) - 3
    · rw [if_pos hcond]
      by_cases hm : matchAt cur i
      · rw [if_pos hm]
        apply ih
        rw [length_copyAt_any cur r i (by omega)]
        omega
      · rw [if_neg hm]
        apply ih
        omega
    · rw [if_neg hcond]; rfl

theorem patchScan_total (r b : List Nat) : (patchScan r b).isSome = true :=
  patchLoop_total r (b.length + 1) b 0 0 (by omega)

theorem optionValues_clean (r : List Nat) (hr : r ∈ optionValues) : cleanReplacement r := by
  simp only [optionValues, options, List.map_cons, List.map_nil, List.mem_cons,
    List.mem_singleton, List.not_mem_nil, or_false] at hr
  rcases hr with h | h | h | h | h | h <;> subst h <;> decide

theorem PatchWitcher_ok (io : Faults) (st : Store) (file : File) (r out : List Nat) (n : Nat)
    (hra : io.readAll = none) (hs : io.seek = none) (hw : io.write = none)
    (hrun : patchScan r (readAll st file).1 = some (out, n)) :
    PatchWitcher io st file r =
      some (.ok (if n = 0 then "looks like witcher 3 is already patched"
                 else "updated " ++ toString n ++ " times, expected 3\n"),
            write st (seekStart (readAll st file).2) out) := by
  unfold PatchWitcher
  simp only [hra, hs, hw, hrun]
  by_cases hn : n = 0 <;> simp [hn]

theorem window_eq_of_pointwise (out r : List Nat) (i : Nat) (hr : r.length = 4)
    (h : ∀ j, j < 4 → out[i + j]? = r[j]?) : (out.drop i).take 4 = r := by
  apply List.ext_getElem?
  intro n
  rw [List.getElem?_take]
  by_cases hn : n < 4
  · rw [if_pos hn, List.getElem?_drop]; exact h n hn
  · rw [if_neg hn]; symm; apply List.getElem?_eq_none; omega

theorem mem_occurrences (b : List Nat) (k : Nat) : k ∈ occurrences b ↔ occursAt b k := by
  unfold occurrences
  rw [List.mem_filter, List.mem_range]
  constructor
  · intro h; exact of_decide_eq_true h.2
  · intro h
    have := occursAt_lt b k h
    exact ⟨by omega, decide_eq_true h⟩

/-- After a clean replacement has been written over every occurrence, no window of
the result holds the signature. -/
theorem patched_no_occurrence (b r out : List Nat) (hr : cleanReplacement r)
    (hrep : ∀ k, occursAt b k → ∀ j, j < 4 → out[k + j]? = r[j]?)
    (hfix : ∀ p, ¬ inWindow b p → out[p]? = b[p]?) :
    ∀ p, ¬ occursAt out p := by
  intro p hp
  rw [occursAt_iff] at hp
  obtain ⟨⟨hl, s1, s2, s3⟩, hne, t1, t2, t3⟩ := hr
  match r, hl with
  | [r0, r1, r2, r3], _ =>
    by_cases hk : ∃ k, occursAt b k ∧ k < p + 4 ∧ p < k + 4
    · obtain ⟨k, hocc, h1, h2⟩ := hk
      have hw := hrep k hocc
      have w0 := hw 0 (by omega)
      have w1 := hw 1 (by omega)
      have w2 := hw 2 (by omega)
      have w3 := hw 3 (by omega)
      have hcases : k = p ∨ k = p + 1 ∨ k = p + 2 ∨ k = p + 3 ∨ p = k + 1 ∨ p = k + 2 ∨
          p = k + 3 := by omega
      rcases hcases with h | h | h | h | h | h | h <;> subst h <;>
        simp_all [hexValue, Nat.add_assoc]
    · have hsame : ∀ j, j < 4 → out[p + j]? = b[p + j]? := by
        intro j hj
        apply hfix
        rintro ⟨k, hocc, h1, h2⟩
        exact hk ⟨k, hocc, by omega, by omega⟩
      have hb : occursAt b p := by
        rw [occursAt_iff]
        have h0 := hsame 0 (by omega)
        rw [Nat.add_zero] at h0
        rw [← h0, ← hsame 1 (by omega), ← hsame 2 (by omega), ← hsame 3 (by omega)]
        exact hp
      exact hk ⟨p, hb, by omega, by omega⟩

theorem patchLoop_no_match (r b : List Nat) (hno : ∀ k, ¬ occursAt b k) :
    ∀ (fuel i : Nat), b.length - i < fuel → patchLoop r fuel b i 0 = some (b, 0) := by
  intro fuel
  induction fuel with
  | zero => intro i h; omega
  | succ fuel ih =>
    intro i h
    unfold patchLoop
    by_cases hcond : (i : Int) < (b.length : Int) - 3
    · rw [if_pos hcond, if_neg (fun hm => hno i ((matchAt_iff b i).1 hm))]
      exact ih (i + 1) (by omega)
    · rw [if_neg hcond]

theorem patchScan_no_match (r b : List Nat) (hno : ∀ k, ¬ occursAt b k) :
    patchScan r b = some (b, 0) :=
  patchLoop_no_match r b hno (b.length + 1) 0 (by omega)

theorem writeAt_zero_same_length (data buf : List Nat) (h : buf.length = data.length) :
    writeAt data 0 buf = buf := by
  unfold writeAt
  rw [Nat.zero_add, ← h, List.drop_eq_nil_of_le (by omega)]
  simp

theorem write_start_same (st : Store) (f : File) (data out : List Nat)
    (hst : st f.path = some data) (hpos : f.pos = 0) (hlen : out.length = data.length) :
    (write st f out).1 f.path = some out := by
  unfold write fileData
  simp [hst, hpos, writeAt_zero_same_length data out hlen]

/-! ### Claims about `PatchWitcher` -/

/-- C2: for every buffer `PatchWitcher` reads and every replacement `r` of the option
table, the buffer it writes back has the length of the input, holds `r` at every
offset where the input holds the signature, and equals the input at every position
outside those 4-byte windows. -/
theorem patchWitcher_buffer_patched (io : Faults) (st : Store) (file : File) (r : List Nat)
    (hra : io.readAll = none) (hs : io.seek = none) (hw : io.write = none)
    (hr : r ∈ optionValues) :
    ∃ out msg,
      PatchWitcher io st file r =
        some (.ok msg, write st (seekStart (readAll st file).2) out) ∧
      out.length = (readAll st file).1.length ∧
      (∀ i, occursAt (readAll st file).1 i → (out.drop i).take 4 = r) ∧
      (∀ p, ¬ inWindow (readAll st file).1 p → out[p]? = (readAll st file).1[p]?) := by
  have hclean := (optionValues_clean r hr).1
  obtain ⟨out, hrun, hlen, hrep, hfix⟩ := patchScan_spec (readAll st file).1 r hclean
  refine ⟨out, _, PatchWitcher_ok io st file r out _ hra hs hw hrun, hlen, ?_, hfix⟩
  intro i hi
  exact window_eq_of_pointwise out r i hclean.1 (hrep i hi)

theorem patchWitcher_buffer_patched_witness :
    [0x8E, 0xE3, 0x18, 0x40] ∈ optionValues ∧
    ∃ out msg,
      PatchWitcher noFaults sampleStore sampleFile [0x8E, 0xE3, 0x18, 0x40] =
        some (.ok msg, write sampleStore (seekStart (readAll sampleStore sampleFile).2) out) ∧
      out.length = (readAll sampleStore sampleFile).1.length ∧
      (∀ i, occursAt (readAll sampleStore sampleFile).1 i →
        (out.drop i).take 4 = [0x8E, 0xE3, 0x18, 0x40]) ∧
      (∀ p, ¬ inWindow (readAll sampleStore sampleFile).1 p →
        out[p]? = (readAll sampleStore sampleFile).1[p]?) :=
  ⟨by decide, patchWitcher_buffer_patched noFaults sampleStore sampleFile _ rfl rfl rfl
    (by decide)⟩

/-- C3, as the code has it: for every buffer with exactly one occurrence of the
signature, at offset `k`, and every 4-byte replacement none of whose proper suffixes
is a prefix of the signature (every value of the option table is one), the scan of
`PatchWitcher` performs exactly 1 replacement and the buffer written back equals
the input at every position outside `k..k+4`. -/
theorem patchWitcher_single_occurrence (io : Faults) (st : Store) (file : File)
    (r : List Nat) (k : Nat)
    (hra : io.readAll = none) (hs : io.seek = none) (hw : io.write = none)
    (hone : occurrences (readAll st file).1 = [k]) (hr : noFalseMatch r) :
    ∃ out,
      patchScan r (readAll st file).1 = some (out, 1) ∧
      PatchWitcher io st file r =
        some (.ok "updated 1 times, expected 3\n",
              write st (seekStart (readAll st file).2) out) ∧
      (out.drop k).take 4 = r ∧
      (∀ p, p < k ∨ k + 4 ≤ p → out[p]? = (readAll st file).1[p]?) := by
  obtain ⟨out, hrun, _, hrep, hfix⟩ := patchScan_spec (readAll st file).1 r hr
  rw [hone, List.length_singleton] at hrun
  have hk : occursAt (readAll st file).1 k := by
    rw [← mem_occurrences, hone]; exact List.mem_singleton_self k
  refine ⟨out, hrun, ?_, window_eq_of_pointwise out r k hr.1 (hrep k hk), ?_⟩
  · rw [PatchWitcher_ok io st file r out _ hra hs hw hrun]
    rfl
  · intro p hp
    apply hfix
    rintro ⟨k1, hocc, h1, h2⟩
    rw [← mem_occurrences, hone, List.mem_singleton] at hocc
    omega

theorem patchWitcher_single_occurrence_witness :
    occurrences (readAll (fun _ => some oneOccurrence) sampleFile).1 = [0] ∧
    noFalseMatch [0x8E, 0xE3, 0x18, 0x40] ∧
    ∃ out,
      patchScan [0x8E, 0xE3, 0x18, 0x40] (readAll (fun _ => some oneOccurrence) sampleFile).1
        = some (out, 1) ∧
      PatchWitcher noFaults (fun _ => some oneOccurrence) sampleFile [0x8E, 0xE3, 0x18, 0x40] =
        some (.ok "updated 1 times, expected 3\n",
              write (fun _ => some oneOccurrence)
                (seekStart (readAll (fun _ => some oneOccurrence) sampleFile).2) out) ∧
      (out.drop 0).take 4 = [0x8E, 0xE3, 0x18, 0x40] ∧
      (∀ p, p < 0 ∨ 0 + 4 ≤ p →
        out[p]? = (readAll (fun _ => some oneOccurrence) sampleFile).1[p]?) :=
  ⟨by decide, by decide,
    patchWitcher_single_occurrence noFaults (fun _ => some oneOccurrence) sampleFile _ 0
      rfl rfl rfl (by decide) (by decide)⟩

/-- C3 as stated fails: the buffer `39 8E E3 3F 3F` has one occurrence of the
signature, at offset 0; with the 4-byte replacement `00 39 8E E3` the scan finds a
second match at offset 1, made of the bytes it has just written, performs 2
replacements and changes the byte at position 4, outside `0..4`. -/
theorem single_occurrence_any_replacement_fails :
    occurrences oneOccurrence = [0] ∧ overlappingReplacement.length = 4 ∧
    patchScan overlappingReplacement oneOccurrence
      = some ([0x00, 0x00, 0x39, 0x8e, 0xe3], 2) ∧
    ([0x00, 0x00, 0x39, 0x8e, 0xe3] : List Nat)[4]? ≠ oneOccurrence[4]? ∧
    (PatchWitcher noFaults (fun _ => some oneOccurrence) sampleFile
        overlappingReplacement).map (fun res => res.1)
      = some (.ok "updated 2 times, expected 3\n") := by
  refine ⟨by decide, by decide, by decide, by decide, by decide⟩

/-- C4: for every buffer `b` and replacements `r`, `r1` of the option table, the
buffer produced by patching `b` with `r` holds no occurrence of the signature;
patching that buffer with `r1` performs 0 replacements, returns the message
"looks like witcher 3 is already patched" with no error, and leaves it unchanged. -/
theorem patchWitcher_idempotent (io : Faults) (st : Store) (path : String)
    (b r r1 : List Nat)
    (hra : io.readAll = none) (hs : io.seek = none) (hw : io.write = none)
    (hb : st path = some b) (hr : r ∈ optionValues) (_hr1 : r1 ∈ optionValues) :
    ∃ out n msg st1 f1 st2 f2,
      patchScan r b = some (out, n) ∧
      PatchWitcher io st { path := path, pos := 0 } r = some (.ok msg, st1, f1) ∧
      st1 path = some out ∧
      occurrences out = [] ∧
      patchScan r1 out = some (out, 0) ∧
      PatchWitcher io st1 { path := path, pos := 0 } r1 =
        some (.ok "looks like witcher 3 is already patched", st2, f2) ∧
      st2 path = some out := by
  have hclean := optionValues_clean r hr
  have hread : (readAll st { path := path, pos := 0 }).1 = b := by
    simp [readAll, fileData, hb]
  obtain ⟨out, hrun, hlen, hrep, hfix⟩ := patchScan_spec b r hclean.1
  have hno := patched_no_occurrence b r out hclean hrep hfix
  have hrun1 := patchScan_no_match r1 out hno
  have hst1 : (write st (seekStart (readAll st { path := path, pos := 0 }).2) out).1 path
      = some out := by
    exact write_start_same st (seekStart (readAll st { path := path, pos := 0 }).2) b out
      hb rfl hlen
  have hread1 : (readAll (write st (seekStart (readAll st { path := path, pos := 0 }).2) out).1
      { path := path, pos := 0 }).1 = out := by
    show (((write st (seekStart (readAll st { path := path, pos := 0 }).2) out).1 path).getD
      []).drop 0 = out
    rw [hst1]; rfl
  have h1 := PatchWitcher_ok io st { path := path, pos := 0 } r out _ hra hs hw
    (by rw [hread]; exact hrun)
  have hocc : occurrences out = [] := by
    unfold occurrences
    rw [List.filter_eq_nil_iff]
    intro k _
    simpa using hno k
  have h2 := PatchWitcher_ok io
    (write st (seekStart (readAll st { path := path, pos := 0 }).2) out).1
    { path := path, pos := 0 } r1 out 0 hra hs hw (by rw [hread1]; exact hrun1)
  have hst2 : (write (write st (seekStart (readAll st { path := path, pos := 0 }).2) out).1
      (seekStart (readAll (write st (seekStart (readAll st { path := path, pos := 0 }).2)
        out).1 { path := path, pos := 0 }).2) out).1 path = some out := by
    exact write_start_same _
      (seekStart (readAll (write st (seekStart (readAll st { path := path, pos := 0 }).2)
        out).1 { path := path, pos := 0 }).2) out out hst1 rfl rfl
  exact ⟨out, _, _, _, _, _, _, hrun, h1, hst1, hocc, hrun1, h2, hst2⟩

theorem patchWitcher_idempotent_witness :
    sampleStore "/game/x64_dx12/witcher3.exe" = some sampleExe ∧
    ∃ out n msg st1 f1 st2 f2,
      patchScan [0x8E, 0xE3, 0x18, 0x40] sampleExe = some (out, n) ∧
      PatchWitcher noFaults sampleStore { path := "/game/x64_dx12/witcher3.exe", pos := 0 }
        [0x8E, 0xE3, 0x18, 0x40] = some (.ok msg, st1, f1) ∧
      st1 "/game/x64_dx12/witcher3.exe" = some out ∧
      occurrences out = [] ∧
      patchScan [0x39, 0x8E, 0x63, 0x40] out = some (out, 0) ∧
      PatchWitcher noFaults st1 { path := "/game/x64_dx12/witcher3.exe", pos := 0 }
        [0x39, 0x8E, 0x63, 0x40] =
        some (.ok "looks like witcher 3 is already patched", st2, f2) ∧
      st2 "/game/x64_dx12/witcher3.exe" = some out :=
  ⟨by decide,
    patchWitcher_idempotent noFaults sampleStore "/game/x64_dx12/witcher3.exe" sampleExe
      [0x8E, 0xE3, 0x18, 0x40] [0x39, 0x8E, 0x63, 0x40] rfl rfl rfl (by decide) (by decide)
      (by decide)⟩

/-- C5: for every buffer and every replacement of the option table, the number of
replacements `PatchWitcher` performs is the number `n` of offsets at which the
signature occurs in the buffer read; when `n ≥ 1` it returns
"updated n times, expected 3" (with a newline) and no error, whether or not `n` is 3,
and a buffer with exactly three occurrences gives count 3. -/
theorem patchWitcher_count_and_message (io : Faults) (st : Store) (file : File)
    (r : List Nat)
    (hra : io.readAll = none) (hs : io.seek = none) (hw : io.write = none)
    (hr : r ∈ optionValues) :
    ∃ out,
      patchScan r (readAll st file).1 = some (out, (occurrences (readAll st file).1).length) ∧
      (1 ≤ (occurrences (readAll st file).1).length →
        PatchWitcher io st file r =
          some (.ok ("updated " ++ toString (occurrences (readAll st file).1).length
                      ++ " times, expected 3\n"),
                write st (seekStart (readAll st file).2) out)) ∧
      ((occurrences (readAll st file).1).length = 3 →
        PatchWitcher io st file r =
          some (.ok "updated 3 times, expected 3\n",
                write st (seekStart (readAll st file).2) out)) := by
  obtain ⟨out, hrun, _, _, _⟩ :=
    patchScan_spec (readAll st file).1 r (optionValues_clean r hr).1
  have hok := PatchWitcher_ok io st file r out _ hra hs hw hrun
  refine ⟨out, hrun, ?_, ?_⟩
  · intro hn
    rw [hok, if_neg (by omega)]
  · intro hn
    rw [hok, hn]
    rfl

theorem patchWitcher_count_and_message_witness :
    [0x26, 0xB4, 0x17, 0x40] ∈ optionValues ∧
    (occurrences (readAll sampleStore sampleFile).1).length = 3 ∧
    ∃ out,
      patchScan [0x26, 0xB4, 0x17, 0x40] (readAll sampleStore sampleFile).1
        = some (out, (occurrences (readAll sampleStore sampleFile).1).length) ∧
      (1 ≤ (occurrences (readAll sampleStore sampleFile).1).length →
        PatchWitcher noFaults sampleStore sampleFile [0x26, 0xB4, 0x17, 0x40] =
          some (.ok ("updated "
                      ++ toString (occurrences (readAll sampleStore sampleFile).1).length
                      ++ " times, expected 3\n"),
                write sampleStore (seekStart (readAll sampleStore sampleFile).2) out)) ∧
      ((occurrences (readAll sampleStore sampleFile).1).length = 3 →
        PatchWitcher noFaults sampleStore sampleFile [0x26, 0xB4, 0x17, 0x40] =
          some (.ok "updated 3 times, expected 3\n",
                write sampleStore (seekStart (readAll sampleStore sampleFile).2) out)) :=
  ⟨by decide, by decide,
    patchWitcher_count_and_message noFaults sampleStore sampleFile _ rfl rfl rfl (by decide)⟩

/-! ### The search -/

/-- Induction over a tree and its lists of entries together. -/
theorem Node.induct (P : Node → Prop) (Q : List Node → Prop)
    (hfile : ∀ name, P (.file name))
    (hdir : ∀ name entries, Q entries → P (.dir name entries))
    (hnil : Q [])
    (hcons : ∀ e rest, P e → Q rest → Q (e :: rest)) :
    (∀ n, P n) ∧ (∀ es, Q es) :=
  ⟨fun n => @Node.rec P Q hfile hdir hnil hcons n,
   fun es => @Node.rec_1 P Q hfile hdir hnil hcons es⟩

theorem length_join (p n : String) : (join p n).length = p.length + 1 + n.length := by
  have h : "/".length = 1 := by decide
  simp [join, String.length_append, h]

/-- Every file found below a directory is an entry named `witcher3.exe` of some
directory. -/
theorem filesIn_shape :
    (∀ n : Node, ∀ p x, x ∈ filesIn (join p n.name) n → ∃ q, x = join q filename) ∧
    (∀ es : List Node, ∀ p x, x ∈ filesInEntries p es → ∃ q, x = join q filename) := by
  apply Node.induct
  · intro name p x hx
    simp only [filesIn, Node.name] at hx
    by_cases h : name = filename
    · rw [if_pos h, List.mem_singleton] at hx
      exact ⟨p, by rw [hx, h]⟩
    · rw [if_neg h] at hx
      exact absurd hx (List.not_mem_nil x)
  · intro name entries ih p x hx
    simp only [filesIn] at hx
    exact ih _ x hx
  · intro p x hx
    simp only [filesInEntries] at hx
    exact absurd hx (List.not_mem_nil x)
  · intro e rest ihe ihrest p x hx
    simp only [filesInEntries, List.mem_append] at hx
    rcases hx with hx | hx
    · exact ihe p x hx
    · exact ihrest p x hx

theorem filesInEntries_length (es : List Node) (p x : String)
    (hx : x ∈ filesInEntries p es) : 1 < x.length := by
  obtain ⟨q, hq⟩ := filesIn_shape.2 es p x hx
  have h : filename.length = 12 := by decide
  rw [hq, length_join, h]
  omega

theorem walkPost_append (exe s1 : String) (ret1 : Option WalkErr) (f1 f2 : List String)
    (r2 : String × Option WalkErr)
    (h1 : WalkPost exe f1 (s1, ret1)) (h2 : WalkPost s1 f2 r2) :
    WalkPost exe (f1 ++ f2) r2 := by
  obtain ⟨_, h1e, h1m⟩ := h1
  obtain ⟨h2r, h2e, h2m⟩ := h2
  refine ⟨h2r, ?_, ?_⟩
  · intro h
    rw [List.append_eq_nil] at h
    rw [h2e h.2]
    exact h1e h.1
  · intro h
    by_cases hf2 : f2 = []
    · rw [hf2, List.append_nil] at h ⊢
      rw [h2e hf2]
      exact h1m h
    · exact List.mem_append_right f1 (h2m hf2)

theorem inner_walk_spec :
    (∀ n : Node, ∀ p exe, WalkPost exe (filesIn p n) (walk innerFn p n exe) ∧
      (filesIn p n = [] → (walk innerFn p n exe).2 = none)) ∧
    (∀ es : List Node, ∀ p exe,
      WalkPost exe (filesInEntries p es) (walkEntries innerFn p es exe) ∧
      (filesInEntries p es = [] → (walkEntries innerFn p es exe).2 = none)) := by
  apply Node.induct
  · intro name p exe
    by_cases h : name = filename
    · simp [walk, innerFn, filesIn, Node.isDir, Node.name, h, WalkPost]
    · simp [walk, innerFn, filesIn, Node.isDir, Node.name, h, WalkPost]
  · intro name entries ih p exe
    have := ih p exe
    simpa [walk, innerFn, filesIn, Node.isDir] using this
  · intro p exe
    simp [walkEntries, filesInEntries, WalkPost]
  · intro e rest ihe ihrest p exe
    have h1 := ihe (join p e.name) exe
    simp only [walkEntries, filesInEntries]
    generalize walk innerFn (join p e.name) e exe = r1 at h1
    obtain ⟨s1, ret1⟩ := r1
    have h2 := ihrest p s1
    cases ret1 with
    | none =>
      refine ⟨walkPost_append exe s1 none _ _ _ h1.1 h2.1, ?_⟩
      intro h
      rw [List.append_eq_nil] at h
      exact h2.2 h.2
    | some err =>
      have herr : err = WalkErr.skipDir := by
        rcases h1.1.1 with h | h
        · exact absurd h (by simp)
        · exact Option.some.inj h
      subst herr
      have hne : filesIn (join p e.name) e ≠ [] := by
        intro h
        have := h1.2 h
        exact absurd this (by simp)
      by_cases hd : e.isDir = true
      · simp only [hd, Bool.not_true, Bool.false_or, ne_eq, not_true_eq_false, decide_False,
          Bool.false_eq_true, if_false]
        refine ⟨walkPost_append exe s1 _ _ _ _ h1.1 h2.1, ?_⟩
        intro h
        rw [List.append_eq_nil] at h
        exact absurd h.1 hne
      · simp only [hd, Bool.not_false, Bool.true_or, if_true]
        refine ⟨⟨Or.inr rfl, ?_, ?_⟩, ?_⟩
        · intro h
          rw [List.append_eq_nil] at h
          exact absurd h.1 hne
        · intro _
          exact List.mem_append_left _ (h1.1.2.2 hne)
        · intro h
          rw [List.append_eq_nil] at h
          exact absurd h.1 hne

theorem matchesIn_subset :
    (∀ n : Node, ∀ p x, x ∈ matchesIn p n → x ∈ filesIn p n) ∧
    (∀ es : List Node, ∀ p x, x ∈ matchesInEntries p es → x ∈ filesInEntries p es) := by
  apply Node.induct
  · intro name p x hx
    simp [matchesIn] at hx
  · intro name entries ih p x hx
    simp only [matchesIn] at hx
    simp only [filesIn]
    by_cases h : name = targetDir
    · rw [if_pos h] at hx; exact hx
    · rw [if_neg h] at hx; exact ih p x hx
  · intro p x hx
    simp [matchesInEntries] at hx
  · intro e rest ihe ihrest p x hx
    simp only [matchesInEntries, List.mem_append] at hx
    simp only [filesInEntries, List.mem_append]
    rcases hx with hx | hx
    · exact Or.inl (ihe _ x hx)
    · exact Or.inr (ihrest p x hx)

theorem matchesIn_length (n : Node) (p x : String) (hx : x ∈ matchesIn p n) :
    1 < x.length := by
  have h := matchesIn_subset.1 n p x hx
  cases n with
  | file name => simp [matchesIn] at hx
  | dir name entries =>
    simp only [filesIn] at h
    exact filesInEntries_length entries p x h

theorem matchesInEntries_length (es : List Node) (p x : String)
    (hx : x ∈ matchesInEntries p es) : 1 < x.length :=
  filesInEntries_length es p x (matchesIn_subset.2 es p x hx)

theorem walkPost_length (exe : String) (found : List String) (r : String × Option WalkErr)
    (hexe : exe.length ≠ 1) (hfound : ∀ x ∈ found, 1 < x.length)
    (h : WalkPost exe found r) : r.1.length ≠ 1 := by
  by_cases hf : found = []
  · rw [h.2.1 hf]; exact hexe
  · have := hfound _ (h.2.2 hf)
    omega

theorem walk_dir {σ : Type} (fn : WalkFunc σ) (p name : String) (es : List Node) (s : σ) :
    walk fn p (.dir name es) s =
      match fn p (.dir name es) s with
      | (s1, some err1) => (s1, some err1)
      | (s1, none) => walkEntries fn p es s1 := by
  simp only [walk]

theorem outerFn_target (p name : String) (es : List Node) (exe : String)
    (hname : name = targetDir) :
    outerFn p (.dir name es) exe =
      match Walk innerFn p (.dir name es) exe with
      | (executable1, some err) => (executable1, some err)
      | (executable1, none) =>
        if executable1.length > 1 then (executable1, some WalkErr.skipDir)
        else (executable1, none) := by
  simp [outerFn, Node.isDir, Node.name, hname]

theorem outer_walk_spec :
    (∀ n : Node, ∀ p exe, exe.length ≠ 1 →
      WalkPost exe (matchesIn p n) (walk outerFn p n exe) ∧
      (n.isDir = false → (walk outerFn p n exe).2 = none)) ∧
    (∀ es : List Node, ∀ p exe, exe.length ≠ 1 →
      WalkPost exe (matchesInEntries p es) (walkEntries outerFn p es exe) ∧
      (walkEntries outerFn p es exe).2 = none) := by
  apply Node.induct
  · intro name p exe _
    simp [walk, outerFn, matchesIn, Node.isDir, WalkPost]
  · intro name entries ih p exe hexe
    refine ⟨?_, fun h => by simp [Node.isDir] at h⟩
    by_cases hname : name = targetDir
    · have hin := (inner_walk_spec.1 (.dir name entries) p exe).1
      simp only [filesIn] at hin
      have hm : matchesIn p (.dir name entries) = filesInEntries p entries := by
        simp [matchesIn, hname]
      rw [hm, walk_dir, outerFn_target p name entries exe hname, Walk]
      generalize walk innerFn p (.dir name entries) exe = r1 at hin
      obtain ⟨s1, ret1⟩ := r1
      have hret : ret1 = none ∨ ret1 = some WalkErr.skipDir := hin.1
      by_cases hlen : 1 < s1.length
      · rcases hret with h | h <;> subst h <;>
          simp only [gt_iff_lt, hlen, if_true] <;>
          exact ⟨Or.inr rfl, hin.2.1, hin.2.2⟩
      · have hnil : filesInEntries p entries = [] := by
          by_contra hne
          exact hlen (filesInEntries_length entries p s1 (hin.2.2 hne))
        have hs1 : s1 = exe := hin.2.1 hnil
        have hmnil : matchesInEntries p entries = [] := by
          rw [List.eq_nil_iff_forall_not_mem]
          intro x hx
          have := matchesIn_subset.2 entries p x hx
          rw [hnil] at this
          exact absurd this (List.not_mem_nil x)
        have hrest := (ih p exe hexe).1
        rw [hmnil] at hrest
        rw [hnil]
        subst hs1
        rcases hret with h | h <;> subst h <;>
          simp only [gt_iff_lt, hlen, if_false] <;>
          exact hrest
    · have hrest := (ih p exe hexe).1
      simpa [walk, outerFn, matchesIn, Node.isDir, Node.name, hname] using hrest
  · intro p exe _
    simp [walkEntries, matchesInEntries, WalkPost]
  · intro e rest ihe ihrest p exe hexe
    have h1 := ihe (join p e.name) exe hexe
    have hs1len := walkPost_length exe _ _ hexe
      (fun x hx => matchesIn_length e (join p e.name) x hx) h1.1
    simp only [walkEntries, matchesInEntries]
    generalize walk outerFn (join p e.name) e exe = r1 at h1 hs1len
    obtain ⟨s1, ret1⟩ := r1
    have h2 := ihrest p s1 hs1len
    cases ret1 with
    | none =>
      exact ⟨walkPost_append exe s1 none _ _ _ h1.1 h2.1, h2.2⟩
    | some err =>
      have herr : err = WalkErr.skipDir := by
        rcases h1.1.1 with h | h
        · exact absurd h (by simp)
        · exact Option.some.inj h
      subst herr
      have hd : e.isDir = true := by
        by_contra hd
        have := h1.2 (by simpa using hd)
        exact absurd this (by simp)
      simp only [hd, Bool.not_true, Bool.false_or, ne_eq, not_true_eq_false, decide_False,
        Bool.false_eq_true, if_false]
      exact ⟨walkPost_append exe s1 _ _ _ _ h1.1 h2.1, h2.2⟩

theorem notFound_msg (rootDir : String) :
    "file " ++ filename ++ " not found in " ++ rootDir
      = "file witcher3.exe not found in " ++ rootDir :=
  congrArg (fun s => s ++ rootDir)
    (by decide : "file " ++ filename ++ " not found in " = "file witcher3.exe not found in ")

/-- The result of `FindWitcher` in terms of the matching files of the tree. -/
theorem findWitcher_result (tree : String → Option Node) (io : Faults) (rootDir : String)
    (info : Node) (htree : tree rootDir = some info) (hopen : io.open_ = none) :
    (matchesIn rootDir info = [] →
      FindWitcher tree io rootDir = .error ("file witcher3.exe not found in " ++ rootDir)) ∧
    (matchesIn rootDir info ≠ [] →
      ∃ x, x ∈ matchesIn rootDir info ∧
        FindWitcher tree io rootDir = .ok { path := x, pos := 0 }) := by
  have hpost := (outer_walk_spec.1 info rootDir "" (by decide)).1
  unfold FindWitcher
  simp only [htree, Walk]
  generalize walk outerFn rootDir info "" = r at hpost
  obtain ⟨s1, ret⟩ := r
  have hret : ret = none ∨ ret = some WalkErr.skipDir := hpost.1
  constructor
  · intro hnil
    have hs1 : s1 = "" := hpost.2.1 hnil
    subst hs1
    rcases hret with h | h <;> subst h <;> simp [notFound_msg]
  · intro hne
    have hmem : s1 ∈ matchesIn rootDir info := hpost.2.2 hne
    have hlen := matchesIn_length info rootDir s1 hmem
    have hlen0 : s1.length ≠ 0 := by omega
    refine ⟨s1, hmem, ?_⟩
    rcases hret with h | h <;> subst h <;> simp [hlen0, hopen]

/-! ### Claims about `FindWitcher` -/

/-- C8: over a directory tree walked with the semantics of `filepath.Walk` and no I/O
errors, `FindWitcher(root)` fails with "file witcher3.exe not found in root" if and
only if the tree holds no non-directory entry named `witcher3.exe` at any depth inside
a directory named `x64_dx12`; otherwise it opens such a file. -/
theorem findWitcher_not_found_iff (tree : String → Option Node) (io : Faults)
    (rootDir : String) (info : Node) (htree : tree rootDir = some info)
    (hopen : io.open_ = none) :
    (FindWitcher tree io rootDir = .error ("file witcher3.exe not found in " ++ rootDir)
      ↔ matchesIn rootDir info = []) ∧
    (matchesIn rootDir info ≠ [] →
      ∃ x, x ∈ matchesIn rootDir info ∧
        FindWitcher tree io rootDir = .ok { path := x, pos := 0 }) := by
  have h := findWitcher_result tree io rootDir info htree hopen
  refine ⟨⟨?_, h.1⟩, h.2⟩
  intro herr
  by_contra hne
  obtain ⟨x, _, hx⟩ := h.2 hne
  rw [hx] at herr
  exact absurd herr (by simp)

theorem findWitcher_not_found_iff_witness :
    (fun _ => some twoInstalls : String → Option Node) "/games" = some twoInstalls ∧
    noFaults.open_ = none ∧
    ((FindWitcher (fun _ => some twoInstalls) noFaults "/games"
        = .error ("file witcher3.exe not found in " ++ "/games")
      ↔ matchesIn "/games" twoInstalls = []) ∧
    (matchesIn "/games" twoInstalls ≠ [] →
      ∃ x, x ∈ matchesIn "/games" twoInstalls ∧
        FindWitcher (fun _ => some twoInstalls) noFaults "/games"
          = .ok { path := x, pos := 0 })) :=
  ⟨rfl, rfl, findWitcher_not_found_iff (fun _ => some twoInstalls) noFaults "/games"
    twoInstalls rfl rfl⟩

/-- C9 fails on the code: with two copies of `witcher3.exe` under `x64_dx12`, in the
directories `a` and `b`, the traversal meets the copy in `a` first and `FindWitcher`
opens the copy in `b`; with two installations side by side it opens the second.
Only when the first copy ends the inner walk, as a file directly in `x64_dx12` does,
is it the one opened. -/
theorem findWitcher_later_match_wins :
    matchesIn "/game" twoCopies
      = ["/game/x64_dx12/a/witcher3.exe", "/game/x64_dx12/b/witcher3.exe"] ∧
    FindWitcher (fun _ => some twoCopies) noFaults "/game"
      = .ok { path := "/game/x64_dx12/b/witcher3.exe", pos := 0 } ∧
    matchesIn "/games" twoInstalls
      = ["/games/gog/x64_dx12/witcher3.exe", "/games/steam/x64_dx12/witcher3.exe"] ∧
    FindWitcher (fun _ => some twoInstalls) noFaults "/games"
      = .ok { path := "/games/steam/x64_dx12/witcher3.exe", pos := 0 } ∧
    matchesIn "/game" fileBeforeDir
      = ["/game/x64_dx12/witcher3.exe", "/game/x64_dx12/zzz/witcher3.exe"] ∧
    FindWitcher (fun _ => some fileBeforeDir) noFaults "/game"
      = .ok { path := "/game/x64_dx12/witcher3.exe", pos := 0 } := by
  refine ⟨by decide, by decide, by decide, by decide, by decide, by decide⟩

/-! ### Claims about `main` -/

theorem optionsLookup_none (resolution : String) (h : resolution ∉ optionKeys) :
    optionsLookup resolution = none := by
  unfold optionsLookup
  rw [Option.map_eq_none', List.find?_eq_none]
  intro kv hkv hbeq
  apply h
  have : kv.1 = resolution := by simpa using hbeq
  rw [← this]
  exact List.mem_map_of_mem _ hkv

/-- C6, as the code has it: for every invocation with exactly two positional
arguments and no flag whose resolution label is not a key of the option table, the
program exits with status 1 whatever the game-directory argument; it prints every
one of the six labels of the table when that argument names an existing directory,
and only "<directory> does not exists" otherwise. -/
theorem invalid_resolution_exits_1 (w : World) (prog directory resolution : String)
    (hpos : flagParse [directory, resolution] false = .ok (false, [directory, resolution]))
    (hres : resolution ∉ optionKeys)
    (hperm : w.keyOrder.Perm optionKeys) :
    ∃ o, main w [prog, directory, resolution] = some o ∧ o.exit = 1 ∧
      (statFails w directory = false → ∀ key, key ∈ optionKeys → (key ++ "\n") ∈ o.stdout) ∧
      (statFails w directory = true → o.stdout = [directory ++ " does not exists\n"]) := by
  have hlook := optionsLookup_none resolution hres
  by_cases hstat : statFails w directory = true
  · refine ⟨_, by simp [main, hpos, hstat]; rfl, rfl, ?_, ?_⟩
    · intro h; rw [hstat] at h; exact absurd h (by simp)
    · intro _; rfl
  · have hstat1 : statFails w directory = false := by simpa using hstat
    refine ⟨_, by simp [main, hpos, hstat1, hlook]; rfl, rfl, ?_, ?_⟩
    · intro _ key hkey
      apply List.mem_cons_of_mem
      exact List.mem_map_of_mem _ (hperm.mem_iff.2 hkey)
    · intro h; rw [hstat1] at h; exact absurd h (by simp)

theorem invalid_resolution_exits_1_witness :
    flagParse ["/game", "1920x1080"] false = .ok (false, ["/game", "1920x1080"]) ∧
    "1920x1080" ∉ optionKeys ∧
    sampleWorld.keyOrder.Perm optionKeys ∧
    statFails sampleWorld "/game" = false ∧
    ∃ o, main sampleWorld ["fix.exe", "/game", "1920x1080"] = some o ∧ o.exit = 1 ∧
      (statFails sampleWorld "/game" = false →
        ∀ key, key ∈ optionKeys → (key ++ "\n") ∈ o.stdout) ∧
      (statFails sampleWorld "/game" = true → o.stdout = ["/game" ++ " does not exists\n"]) :=
  ⟨by decide, by decide, List.Perm.refl _, by decide,
    invalid_resolution_exits_1 sampleWorld "fix.exe" "/game" "1920x1080" (by decide)
      (by decide) (List.Perm.refl _)⟩

/-- C6 as stated fails: with the game-directory argument `/nowhere`, which names no
directory, and the label `1920x1080`, which is not in the table, the program exits
with status 1 after printing only "/nowhere does not exists"; none of the labels
is printed.  And `main` counts `os.Args`, not the positional arguments: after the
terminator `--` the same two positional arguments give the usage text and
status 0. -/
theorem invalid_resolution_missing_directory :
    flagParse ["/nowhere", "1920x1080"] false = .ok (false, ["/nowhere", "1920x1080"]) ∧
    "1920x1080" ∉ optionKeys ∧
    (main sampleWorld ["fix.exe", "/nowhere", "1920x1080"]).map (fun o => o.exit) = some 1 ∧
    (main sampleWorld ["fix.exe", "/nowhere", "1920x1080"]).map (fun o => o.stdout)
      = some ["/nowhere does not exists\n"] ∧
    (∀ key, key ∈ optionKeys → (key ++ "\n") ∉ ["/nowhere does not exists\n"]) ∧
    flagParse ["--", "/game", "1920x1080"] false = .ok (false, ["/game", "1920x1080"]) ∧
    (main sampleWorld ["fix.exe", "--", "/game", "1920x1080"]).map
        (fun o => (o.exit, o.stdout, o.stderr)) = some (0, [], [usage]) := by
  refine ⟨by decide, by decide, by decide, by decide, by decide, by decide, by decide⟩

theorem findWitcher_ok_shape (tree : String → Option Node) (io : Faults) (rootDir : String)
    (file : File) (h : FindWitcher tree io rootDir = .ok file) :
    ∃ q, file.path = join q filename ∧ file.pos = 0 := by
  cases htree : tree rootDir with
  | none => simp [FindWitcher, htree] at h
  | some info =>
    cases hopen : io.open_ with
    | some err =>
      exfalso
      unfold FindWitcher at h
      simp only [htree, hopen] at h
      split at h
      · exact absurd h (by simp)
      · split at h <;> exact absurd h (by simp)
    | none =>
      have hres := findWitcher_result tree io rootDir info htree hopen
      by_cases hm : matchesIn rootDir info = []
      · rw [hres.1 hm] at h
        exact absurd h (by simp)
      · obtain ⟨x, hx, hfw⟩ := hres.2 hm
        rw [hfw] at h
        have hfile : file = { path := x, pos := 0 } := (Except.ok.inj h).symm
        rw [hfile]
        cases info with
        | file name => simp [matchesIn] at hx
        | dir name entries =>
          have := matchesIn_subset.1 _ rootDir x hx
          simp only [filesIn] at this
          obtain ⟨q, hq⟩ := filesIn_shape.2 entries rootDir x this
          exact ⟨q, hq, rfl⟩

theorem join_filename_ne_backup (q d : String) :
    join q filename ≠ join d "witcher3_backup.exe" := by
  intro h
  have h1 := congrArg (fun s : String => s.data.reverse.take 5) h
  simp [join, filename, String.data_append, List.reverse_append] at h1

/-- C7: in every run of `main` in which creating `witcher3_backup.exe` fails or
copying the target into it fails, the program exits with status 1, `PatchWitcher`
is never invoked, and the contents of the target `witcher3.exe` are unchanged. -/
theorem backup_failure_aborts (w : World) (osArgs : List String)
    (hfail : w.io.create ≠ none ∨ w.io.copy ≠ none) :
    ∃ o, main w osArgs = some o ∧
      Call.patchWitcher ∉ o.calls ∧
      (∀ file, FindWitcher w.tree w.io (osArgs.getD 1 "") = .ok file →
        o.store file.path = w.store file.path) ∧
      (Call.create ∈ o.calls → o.exit = 1) := by
  unfold main
  split
  · exact ⟨_, rfl, by simp, fun _ _ => rfl, by simp⟩
  · split
    · exact ⟨_, rfl, by simp, fun _ _ => rfl, by simp⟩
    · split
      · exact ⟨_, rfl, by simp, fun _ _ => rfl, by simp⟩
      · simp only []
        split
        · exact ⟨_, rfl, by simp, fun _ _ => rfl, by simp⟩
        · split
          · exact ⟨_, rfl, by simp, fun _ _ => rfl, by simp⟩
          · split
            · exact ⟨_, rfl, by simp, fun _ _ => rfl, by simp⟩
            · rename_i file hfind
              split
              · exact ⟨_, rfl, by simp, fun _ _ => rfl, by simp⟩
              · rename_i hcreate
                split
                · refine ⟨_, rfl, by simp, ?_, by simp⟩
                  intro file1 hfile1
                  rw [hfind] at hfile1
                  have hfile : file = file1 := Except.ok.inj hfile1
                  subst hfile
                  obtain ⟨q, hq, _⟩ := findWitcher_ok_shape _ _ _ _ hfind
                  simp only [write]
                  rw [Function.update_noteq, Function.update_noteq]
                  · rw [hq]; exact join_filename_ne_backup q _
                  · rw [hq]; exact join_filename_ne_backup q _
                · rename_i hcopy
                  exfalso
                  rcases hfail with h | h
                  · exact h hcreate
                  · exact h hcopy

theorem backup_failure_aborts_witness :
    (diskFullWorld.io.create ≠ none ∨ diskFullWorld.io.copy ≠ none) ∧
    (main diskFullWorld ["fix.exe", "/game", "3440x1440"]).map (fun o => o.calls)
      = some [Call.findWitcher, Call.create, Call.copy] ∧
    (main diskFullWorld ["fix.exe", "/game", "3440x1440"]).map
        (fun o => o.store "/game/witcher3_backup.exe") = some (some [0x4d, 0x5a, 0x39]) ∧
    ∃ o, main diskFullWorld ["fix.exe", "/game", "3440x1440"] = some o ∧
      Call.patchWitcher ∉ o.calls ∧
      (∀ file, FindWitcher diskFullWorld.tree diskFullWorld.io
          (["fix.exe", "/game", "3440x1440"].getD 1 "") = .ok file →
        o.store file.path = diskFullWorld.store file.path) ∧
      (Call.create ∈ o.calls → o.exit = 1) :=
  ⟨by decide, by decide, by decide,
    backup_failure_aborts diskFullWorld ["fix.exe", "/game", "3440x1440"] (by decide)⟩

/-- A handle that has been read to the end yields no bytes on the next read: the
store and the offset are those the first read left. -/
theorem readAll_twice (st : Store) (f : File) : (readAll st (readAll st f).2).1 = [] := by
  simp only [readAll, fileData]
  apply List.drop_eq_nil_of_le
  omega

/-- Whatever the executable holds, a run of `main` in which every call succeeds
leaves it as it was and reports "looks like witcher 3 is already patched": the
handle `PatchWitcher` reads from is the one `io.Copy` has read to the end. -/
theorem main_never_patches (w : World) (prog directory resolution : String)
    (r b : List Nat) (file : File)
    (hpos : flagParse [directory, resolution] false = .ok (false, [directory, resolution]))
    (hstat : statFails w directory = false)
    (hopt : optionsLookup resolution = some r)
    (hfind : FindWitcher w.tree w.io directory = .ok file)
    (hb : w.store file.path = some b)
    (hcreate : w.io.create = none) (hcopy : w.io.copy = none)
    (hra : w.io.readAll = none) (hs : w.io.seek = none) (hw : w.io.write = none) :
    ∃ o, main w [prog, directory, resolution] = some o ∧ o.exit = 0 ∧
      o.stdout = ["created a backup at " ++ join directory "witcher3_backup.exe" ++ "\n",
                  "looks like witcher 3 is already patched" ++ "\n"] ∧
      o.store file.path = some b ∧
      o.store (join directory "witcher3_backup.exe") = some b := by
  obtain ⟨q, hq, hpos0⟩ := findWitcher_ok_shape _ _ _ _ hfind
  have hne : file.path ≠ join directory "witcher3_backup.exe" := by
    rw [hq]; exact join_filename_ne_backup q directory
  have hd1 : fileData (Function.update w.store (join directory "witcher3_backup.exe")
      (some [])) file = b := by
    simp [fileData, Function.update_noteq hne, hb]
  have hread : readAll (Function.update w.store (join directory "witcher3_backup.exe")
      (some [])) file = (b, { path := file.path, pos := b.length }) := by
    simp [readAll, hd1, hpos0]
  have hwb : writeAt [] 0 b = b := by simp [writeAt]
  have hst2 : (write (Function.update w.store (join directory "witcher3_backup.exe")
      (some [])) { path := join directory "witcher3_backup.exe", pos := 0 } b).1
      = Function.update w.store (join directory "witcher3_backup.exe") (some b) := by
    simp [write, fileData, hwb]
  have hd2 : fileData (Function.update w.store (join directory "witcher3_backup.exe")
      (some b)) { path := file.path, pos := b.length } = b := by
    simp [fileData, Function.update_noteq hne, hb]
  have hread2 : readAll (Function.update w.store (join directory "witcher3_backup.exe")
      (some b)) { path := file.path, pos := b.length }
      = ([], { path := file.path, pos := b.length }) := by
    simp [readAll, hd2]
  have hscan : patchScan r (readAll (Function.update w.store
      (join directory "witcher3_backup.exe") (some b))
      { path := file.path, pos := b.length }).1 = some ([], 0) := by
    rw [hread2]; rfl
  have hpatch := PatchWitcher_ok w.io _ _ r [] 0 hra hs hw hscan
  rw [hread2] at hpatch
  have hwt : writeAt b 0 [] = b := by simp [writeAt]
  refine ⟨_, by
    simp only [main, List.drop, hpos, List.length, List.getD, List.get?, Option.getD,
      hstat, hopt, hfind, hcreate, hcopy, hread, hst2, hpatch]
    rfl, rfl, rfl, ?_, ?_⟩
  · have hd3 : fileData (Function.update w.store (join directory "witcher3_backup.exe")
        (some b)) { path := file.path, pos := 0 } = b := hd2
    simp [write, seekStart, hd3, hwt]
  · simp only [write, seekStart]
    rw [Function.update_noteq (Ne.symm hne)]
    simp

/-- C1 fails on the code: in the game directory `/game`, whose
`x64_dx12/witcher3.exe` holds the signature three times, the run with `3440x1440`
exits with status 0 and writes a backup equal to the executable, but `io.Copy` has
left the handle at the end of the file, so `PatchWitcher` reads nothing: the report
is "looks like witcher 3 is already patched" and the executable is unchanged.  On
a handle at offset 0 `PatchWitcher` reports "updated 3 times, expected 3". -/
theorem main_leaves_target_unpatched :
    FindWitcher sampleWorld.tree sampleWorld.io "/game"
      = .ok { path := "/game/x64_dx12/witcher3.exe", pos := 0 } ∧
    sampleWorld.store "/game/x64_dx12/witcher3.exe" = some sampleExe ∧
    occurrences sampleExe = [2, 7, 11] ∧
    (main sampleWorld ["fix.exe", "/game", "3440x1440"]).map (fun o => o.exit) = some 0 ∧
    (main sampleWorld ["fix.exe", "/game", "3440x1440"]).map (fun o => o.calls)
      = some [Call.findWitcher, Call.create, Call.copy, Call.patchWitcher] ∧
    (main sampleWorld ["fix.exe", "/game", "3440x1440"]).map (fun o => o.stdout)
      = some ["created a backup at /game/witcher3_backup.exe\n",
              "looks like witcher 3 is already patched\n"] ∧
    (main sampleWorld ["fix.exe", "/game", "3440x1440"]).map
        (fun o => o.store "/game/witcher3_backup.exe") = some (some sampleExe) ∧
    (main sampleWorld ["fix.exe", "/game", "3440x1440"]).map
        (fun o => o.store "/game/x64_dx12/witcher3.exe") = some (some sampleExe) ∧
    (PatchWitcher noFaults sampleStore sampleFile [0x8E, 0xE3, 0x18, 0x40]).map
        (fun res => (res.1, res.2.1 "/game/x64_dx12/witcher3.exe"))
      = some (.ok "updated 3 times, expected 3\n",
              some [0x4d, 0x5a, 0x8E, 0xE3, 0x18, 0x40, 0x00, 0x8E, 0xE3, 0x18, 0x40,
                    0x8E, 0xE3, 0x18, 0x40, 0x90]) := by
  refine ⟨by decide, by decide, by decide, by decide, by decide, by decide, by decide,
    by decide, by decide⟩

/-! ### The patch constants -/

theorem f32Scaled_gap (e0 m0 e m : Nat) (he0 : 1 ≤ e0) (hm0 : 1 ≤ m0) (hm0' : m0 < 2 ^ 23)
    (hm : m < 2 ^ 23) :
    f32Scaled e m = f32Scaled e0 m0 ∨ f32Scaled e m + 2 ^ e0 ≤ f32Scaled e0 m0 ∨
      f32Scaled e0 m0 + 2 ^ e0 ≤ f32Scaled e m := by
  have hX : f32Scaled e0 m0 = (2 ^ 23 + m0) * 2 ^ e0 := by
    unfold f32Scaled; rw [if_neg (by omega)]
  rw [hX]
  have hP : 2 ≤ 2 ^ e0 := by
    calc 2 = 2 ^ 1 := rfl
      _ ≤ 2 ^ e0 := Nat.pow_le_pow_right (by omega) he0
  generalize hPd : 2 ^ e0 = P at *
  by_cases h0 : e = 0
  · right; left
    unfold f32Scaled; rw [if_pos h0]
    nlinarith
  · have hY : f32Scaled e m = (2 ^ 23 + m) * 2 ^ e := by
      unfold f32Scaled; rw [if_neg h0]
    rw [hY]
    rcases Nat.lt_trichotomy e e0 with hlt | heq | hgt
    · right; left
      have h2 : 2 * 2 ^ e ≤ P := by
        rw [← hPd]
        calc 2 * 2 ^ e = 2 ^ (e + 1) := by ring
          _ ≤ 2 ^ e0 := Nat.pow_le_pow_right (by omega) hlt
      nlinarith
    · subst heq
      rw [hPd]
      rcases Nat.lt_trichotomy m m0 with h | h | h
      · right; left; nlinarith
      · left; rw [h]
      · right; right; nlinarith
    · right; right
      have h2 : 2 * P ≤ 2 ^ e := by
        rw [← hPd]
        calc 2 * 2 ^ e0 = 2 ^ (e0 + 1) := by ring
          _ ≤ 2 ^ e := Nat.pow_le_pow_right (by omega) hgt
      nlinarith

theorem f32Scaled_ge (e0 m0 : Nat) (he0 : 1 ≤ e0) : 2 ^ e0 ≤ f32Scaled e0 m0 := by
  unfold f32Scaled
  rw [if_neg (by omega)]
  have : 0 < 2 ^ e0 := Nat.two_pow_pos e0
  nlinarith

theorem abs_nearest (x q u z : ℚ) (hq : |x - q| ≤ u / 2)
    (hz : z = x ∨ z ≤ x - u ∨ x + u ≤ z) : |x - q| ≤ |z - q| := by
  have hb := abs_le.1 hq
  rcases hz with h | h | h
  · rw [h]
  · have := neg_le_abs (z - q)
    linarith
  · have := le_abs_self (z - q)
    linarith

theorem nearest_of_half_ulp (e0 m0 : Nat) (q : ℚ) (he0 : 1 ≤ e0) (hm0 : 1 ≤ m0)
    (hm0' : m0 < 2 ^ 23) (hq : |f32Value 0 e0 m0 - q| ≤ 2 ^ e0 / 2 ^ 151) :
    nearestF32 (f32Value 0 e0 m0) q := by
  intro bits y hy
  unfold decodeF32 at hy
  split at hy
  · exact absurd hy (by simp)
  · have hy' := Option.some.inj hy
    have hm : bits % 2 ^ 23 < 2 ^ 23 := Nat.mod_lt _ (by norm_num)
    have hgap := f32Scaled_gap e0 m0 (bits / 2 ^ 23 % 2 ^ 8) (bits % 2 ^ 23) he0 hm0 hm0' hm
    have hge := f32Scaled_ge e0 m0 he0
    have hu : (2 : ℚ) ^ e0 / 2 ^ 151 = (((2 ^ e0 : ℕ) : ℚ) / 2 ^ 150) / 2 := by
      push_cast; ring
    rw [hu] at hq
    apply abs_nearest _ _ _ _ hq
    rw [← hy']
    unfold f32Value
    generalize f32Scaled (bits / 2 ^ 23 % 2 ^ 8) (bits % 2 ^ 23) = Y at hgap
    generalize f32Scaled e0 m0 = X at hgap hge
    generalize 2 ^ e0 = P at hgap hge
    have hD : (0 : ℚ) < 2 ^ 150 := by positivity
    generalize (2 : ℚ) ^ 150 = D at hD
    rw [if_pos rfl, one_mul]
    have hPX : (P : ℚ) / D ≤ (X : ℚ) / D :=
      div_le_div_of_nonneg_right (by exact_mod_cast hge) hD.le
    have hY0 : (0 : ℚ) ≤ (Y : ℚ) / D := div_nonneg (Nat.cast_nonneg Y) hD.le
    by_cases hs : bits / 2 ^ 31 % 2 = 0
    · rw [if_pos hs, one_mul]
      rcases hgap with h | h | h
      · left; rw [h]
      · right; left
        have : ((Y : ℚ) + P) / D ≤ (X : ℚ) / D :=
          div_le_div_of_nonneg_right (by exact_mod_cast h) hD.le
        rw [add_div] at this
        linarith
      · right; right
        have : ((X : ℚ) + P) / D ≤ (Y : ℚ) / D :=
          div_le_div_of_nonneg_right (by exact_mod_cast h) hD.le
        rw [add_div] at this
        linarith
    · rw [if_neg hs]
      right; left
      have : -1 * (Y : ℚ) / D = -((Y : ℚ) / D) := by ring
      rw [this]
      linarith

theorem encodesAspect_of (label : String) (bytes : List Nat) (W H m : Nat)
    (hlabel : parseLabel label = some (W, H))
    (hbits : decodeF32 (le32 bytes) = some (f32Value 0 128 m))
    (hm : 1 ≤ m) (hm1 : m < 2 ^ 23)
    (hq : |f32Value 0 128 m - (W : ℚ) / (H : ℚ)| ≤ 2 ^ 128 / 2 ^ 151) :
    encodesAspect (label, bytes) :=
  ⟨W, H, _, hlabel, hbits, nearest_of_half_ulp 128 m _ (by norm_num) hm hm1 hq⟩

/-- C10: each patch constant encodes the aspect ratio of its label: the table of the
program is the table of the specification, the four bytes of every entry "WxH",
read as a little-endian IEEE-754 single-precision bit pattern, decode to the
single-precision value nearest to the rational `W/H`, and the signature
`39 8E E3 3F` decodes to the single-precision value nearest to `16/9`. -/
theorem options_encode_aspect_ratios :
    options =
      [ ("2560x1080", [0x26, 0xB4, 0x17, 0x40]),
        ("3440x1440", [0x8E, 0xE3, 0x18, 0x40]),
        ("3840x1600", [0x9A, 0x99, 0x19, 0x40]),
        ("5120x1440", [0x39, 0x8E, 0x63, 0x40]),
        ("5120x2160", [0x26, 0xB4, 0x17, 0x40]),
        ("6880x2880", [0x8E, 0xE3, 0x18, 0x40]) ] ∧
    List.Forall encodesAspect options ∧
    (∃ x, decodeF32 (le32 hexValue) = some x ∧ nearestF32 x (16 / 9)) := by
  refine ⟨rfl, ?_, ?_⟩
  · simp only [options, List.Forall]
    refine ⟨?_, ?_, ?_, ?_, ?_, ?_⟩
    · exact encodesAspect_of _ _ 2560 1080 1553446 (by decide) rfl (by norm_num) (by norm_num)
        (by norm_num [f32Value, f32Scaled, abs_le])
    · exact encodesAspect_of _ _ 3440 1440 1631118 (by decide) rfl (by norm_num) (by norm_num)
        (by norm_num [f32Value, f32Scaled, abs_le])
    · exact encodesAspect_of _ _ 3840 1600 1677722 (by decide) rfl (by norm_num) (by norm_num)
        (by norm_num [f32Value, f32Scaled, abs_le])
    · exact encodesAspect_of _ _ 5120 1440 6524473 (by decide) rfl (by norm_num) (by norm_num)
        (by norm_num [f32Value, f32Scaled, abs_le])
    · exact encodesAspect_of _ _ 5120 2160 1553446 (by decide) rfl (by norm_num) (by norm_num)
        (by norm_num [f32Value, f32Scaled, abs_le])
    · exact encodesAspect_of _ _ 6880 2880 1631118 (by decide) rfl (by norm_num) (by norm_num)
        (by norm_num [f32Value, f32Scaled, abs_le])
  · refine ⟨f32Value 0 127 6524473, rfl, ?_⟩
    apply nearest_of_half_ulp _ _ _ (by norm_num) (by norm_num) (by norm_num)
    norm_num [f32Value, f32Scaled, abs_le]

end Witcher
